import Mathlib

/-!
Verification of the REINFORCE-with-learned-baseline notebook
(`Policy_Gradients_REINFORCE_learned_baseline.ipynb`).

The Python/PyTorch code is shallowly embedded:
  * `nn.Linear` layers become explicit weight/bias matrices over an ordered
    field; applying a layer to a vector of the wrong length returns `none`
    (PyTorch raises a shape-mismatch error there).
  * `torch.distributions.Categorical` becomes a structure holding its logits,
    with `probs`, `sample` (inverse-CDF on a uniform draw) and `log_prob`
    defined by the usual soft-max formulas over `ℝ`.
  * `Net` mirrors `Net.__init__`: the value head's input width is the literal
    `128` from the source, independent of the `h_size` parameter.
  * `Net.forward` mirrors the notebook cell, including the construction
    `Categorical(logits=value)` from the value-head output.
  * `compute_returns` becomes the backward accumulation `R = r + γ·R`
    (`compute_returns_pre`) followed by the two in-place numpy operations
    `returns -= returns.mean()` and `returns /= returns.std()`.
  * machine floats are modelled as real numbers; `x / 0 = 0` is Lean's
    division convention where numpy would produce `nan`.
-/

namespace RL

/-- Model of `nn.Linear(inF, outF)`: a weight matrix and a bias vector. -/
structure Linear (α : Type) (inF outF : ℕ) where
  weight : Fin outF → Fin inF → α
  bias : Fin outF → α

/-- Applying a linear layer to an activation vector.  PyTorch raises a
runtime shape error when the input length differs from the layer's declared
input width; that failure is modelled by `none`. -/
def Linear.apply {α : Type} [LinearOrderedField α] {inF outF : ℕ}
    (l : Linear α inF outF) (x : List α) : Option (List α) :=
  if x.length = inF then
    some (List.ofFn fun o => (∑ i : Fin inF, l.weight o i * x.getD i.1 0) + l.bias o)
  else
    none

/-- Model of `torch.distributions.Categorical(logits=...)`: the distribution
is determined by its logits vector. -/
structure Categorical (α : Type) where
  logits : List α

/-- The distribution `Categorical(logits=l)`. -/
def Categorical.ofLogits {α : Type} (l : List α) : Categorical α := ⟨l⟩

/-- The number of categories of the distribution (PyTorch: the size of the
last dimension of the logits). -/
def Categorical.numCategories {α : Type} (d : Categorical α) : ℕ :=
  d.logits.length

/-- Soft-max probabilities of the categorical distribution. -/
noncomputable def Categorical.probs (d : Categorical ℝ) : List ℝ :=
  d.logits.map (fun z => Real.exp z / (d.logits.map Real.exp).sum)

/-- Inverse-CDF sampling from a probability vector given a uniform draw `u`
in `[0, 1)`: walk down the list subtracting probabilities. -/
noncomputable def sampleFromProbs : List ℝ → ℝ → ℕ
  | [], _ => 0
  | p :: rest, u => if u < p then 0 else sampleFromProbs rest (u - p) + 1

/-- PyTorch `dist.sample()`, with the underlying uniform draw `u` made explicit. -/
noncomputable def Categorical.sample (d : Categorical ℝ) (u : ℝ) : ℕ :=
  sampleFromProbs d.probs u

/-- PyTorch `dist.log_prob(a)`: the chosen logit minus the log of the sum of the
exponentiated logits. -/
noncomputable def Categorical.logProb (d : Categorical ℝ) (a : ℕ) : ℝ :=
  d.logits.getD a 0 - Real.log ((d.logits.map Real.exp).sum)

/-- Model of `Net.__init__(s_size=8, h_size=128, a_size=4)`.  As in the
source, `fc_shared : s_size → h_size`, `fc_policy : h_size → a_size`, and
`fc_value_function : 128 → 1` with the input width written as the literal
`128`, not `h_size`. -/
structure Net (α : Type) (s_size h_size a_size : ℕ) where
  fc_shared : Linear α s_size h_size
  fc_policy : Linear α h_size a_size
  fc_value_function : Linear α 128 1

/-- Model of `Net.forward`: shared layer, ReLU, both heads, and then
`dist = Categorical(logits=value)` — the distribution is built from the
value-head output, exactly as in the source; the policy-head `logits` are
computed and discarded. -/
def Net.forward {α : Type} [LinearOrderedField α] {s h a : ℕ}
    (net : Net α s h a) (x : List α) : Option (Categorical α × List α) :=
  match net.fc_shared.apply x with
  | none => none
  | some x0 =>
    let x1 := x0.map (fun v => max v 0)
    match net.fc_policy.apply x1 with
    | none => none
    | some _logits =>
      match net.fc_value_function.apply x1 with
      | none => none
      | some value => some (Categorical.ofLogits value, value)

/-- The backward-accumulation loop of `compute_returns`:
`for step in reversed(range(len(rewards))): R = rewards[step] + gamma * R;
returns.insert(0, R)`, rendered structurally (the head of the returns list
built so far is the accumulator `R`, initially `0`). -/
def compute_returns_pre {α : Type} [LinearOrderedField α] :
    List α → α → List α
  | [], _ => []
  | r :: rest, gamma =>
    (r + gamma * (compute_returns_pre rest gamma).headD 0) ::
      compute_returns_pre rest gamma

/-- numpy `arr.mean()`. -/
noncomputable def npMean (xs : List ℝ) : ℝ := xs.sum / xs.length

/-- numpy `arr.std()` (population standard deviation, `ddof = 0`). -/
noncomputable def npStd (xs : List ℝ) : ℝ :=
  Real.sqrt ((xs.map (fun x => (x - npMean xs) ^ 2)).sum / xs.length)

/-- Model of `compute_returns(rewards, gamma)`: the accumulation loop, then
`returns -= returns.mean()` and `returns /= returns.std()` (the std is taken
of the already-centred array, as in the source). -/
noncomputable def compute_returns (rewards : List ℝ) (gamma : ℝ) : List ℝ :=
  let returns := compute_returns_pre rewards gamma
  let centred := returns.map (fun x => x - npMean returns)
  centred.map (fun x => x / npStd centred)

/-! ### Basic facts about the return accumulation -/

lemma headD_eq_getD {α : Type} (xs : List α) (d : α) : xs.headD d = xs.getD 0 d := by
  cases xs <;> rfl

lemma compute_returns_pre_length {α : Type} [LinearOrderedField α]
    (rewards : List α) (gamma : α) :
    (compute_returns_pre rewards gamma).length = rewards.length := by
  induction rewards with
  | nil => rfl
  | cons r rest ih => simp [compute_returns_pre, ih]

lemma compute_returns_pre_getD {α : Type} [LinearOrderedField α]
    (rewards : List α) (gamma : α) (i : ℕ) :
    (compute_returns_pre rewards gamma).getD i 0 =
      rewards.getD i 0 + gamma * (compute_returns_pre rewards gamma).getD (i + 1) 0 := by
  induction rewards generalizing i with
  | nil => simp [compute_returns_pre]
  | cons r rest ih =>
    cases i with
    | zero => simp [compute_returns_pre, headD_eq_getD, List.getD, List.head?_eq_getElem?]
    | succ j => simpa [compute_returns_pre] using ih j

/-- C2: the pre-normalization returns of `compute_returns` have the same
length as the reward list and satisfy the backward recurrence
`G_t = r_t + gamma * G_(t+1)` (with the accumulator `0` past the end, so the
last return equals the last reward); for rewards `[1, 1, 1]` with `gamma = 1`
the pre-normalization returns are `[3, 2, 1]`, and for rewards `[0, 0, 10]`
with `gamma = 1/2` they are `[5/2, 5, 10]`. -/
theorem C2_returns_recurrence :
    (∀ (rewards : List ℝ) (gamma : ℝ),
      (compute_returns_pre rewards gamma).length = rewards.length
      ∧ ∀ i : ℕ, (compute_returns_pre rewards gamma).getD i 0 =
          rewards.getD i 0 + gamma * (compute_returns_pre rewards gamma).getD (i + 1) 0)
    ∧ compute_returns_pre [(1 : ℝ), 1, 1] 1 = [3, 2, 1]
    ∧ compute_returns_pre [(0 : ℝ), 0, 10] (1 / 2) = [5 / 2, 5, 10] := by
  refine ⟨fun rewards gamma => ⟨compute_returns_pre_length rewards gamma,
    fun i => compute_returns_pre_getD rewards gamma i⟩, ?_, ?_⟩ <;>
    norm_num [compute_returns_pre]

/-! ### The `compute_returns` loop with the caller's reward list threaded
as explicit mutable state.  Iteration `n` of `frameLoop` is the Python loop
iteration with `step = len(rewards) - 1 - n`; the state carries the rewards
list, the `returns` list built so far (`insert(0, R)` prepends) and the
accumulator `R`. -/

noncomputable def frameLoop (rw : List ℝ) (gamma : ℝ) : ℕ → List ℝ × List ℝ × ℝ
  | 0 => (rw, [], 0)
  | n + 1 =>
    let prev := frameLoop rw gamma n
    let step := rw.length - 1 - n
    let R := prev.1.getD step 0 + gamma * prev.2.2
    (prev.1, R :: prev.2.1, R)

/-- Model of `compute_returns` with the caller's reward list threaded through as
state: the loop, then `np.array(returns)` (a fresh array) and the two
in-place numpy operations on that fresh array.  The first component is the
reward list as the caller sees it after the call. -/
noncomputable def computeReturnsFrame (rewards : List ℝ) (gamma : ℝ) :
    List ℝ × List ℝ :=
  let fin := frameLoop rewards gamma rewards.length
  let returns := fin.2.1
  let centred := returns.map (fun x => x - npMean returns)
  (fin.1, centred.map (fun x => x / npStd centred))

lemma frameLoop_fst (rw : List ℝ) (gamma : ℝ) (n : ℕ) :
    (frameLoop rw gamma n).1 = rw := by
  induction n with
  | zero => rfl
  | succ n ih => simp [frameLoop, ih]

lemma frameLoop_snd (rw : List ℝ) (gamma : ℝ) (n : ℕ) (hn : n ≤ rw.length) :
    (frameLoop rw gamma n).2.1 =
      compute_returns_pre (rw.drop (rw.length - n)) gamma := by
  induction n with
  | zero => simp [frameLoop, compute_returns_pre]
  | succ n ih =>
    have hlt : rw.length - 1 - n < rw.length := by omega
    have hdrop : rw.drop (rw.length - (n + 1)) =
        rw.get ⟨rw.length - 1 - n, hlt⟩ :: rw.drop (rw.length - n) := by
      have h1 : rw.length - (n + 1) = rw.length - 1 - n := by omega
      have h2 : rw.length - 1 - n + 1 = rw.length - n := by omega
      rw [h1, List.drop_eq_getElem_cons hlt, h2]
      rfl
    have hget : rw.getD (rw.length - 1 - n) 0 = rw.get ⟨rw.length - 1 - n, hlt⟩ := by
      rw [List.getD_eq_getElem rw 0 hlt]
      rfl
    have hR : (frameLoop rw gamma n).2.2 = (frameLoop rw gamma n).2.1.headD 0 := by
      cases n with
      | zero => rfl
      | succ m => simp [frameLoop]
    simp only [frameLoop, frameLoop_fst, hR, ih (by omega), hdrop,
      compute_returns_pre, hget]

/-- C9: `compute_returns` does not modify its input.  With the caller's
reward list threaded through the call as explicit state, the list coming
out is exactly the list that went in, and the returned array agrees with
the functional model `compute_returns`, so the trainer's later
`sum(rewards)` sees the original values. -/
theorem C9_rewards_unchanged (rewards : List ℝ) (gamma : ℝ) :
    (computeReturnsFrame rewards gamma).1 = rewards
    ∧ (computeReturnsFrame rewards gamma).2 = compute_returns rewards gamma := by
  constructor
  · simp [computeReturnsFrame, frameLoop_fst]
  · simp [computeReturnsFrame, compute_returns,
      frameLoop_snd rewards gamma rewards.length le_rfl]

/-! ### Mean and standard deviation of the normalized returns -/

lemma listSum_map_sub (xs : List ℝ) (c : ℝ) :
    (xs.map (fun x => x - c)).sum = xs.sum - xs.length * c := by
  induction xs with
  | nil => simp
  | cons a l ih =>
    simp only [List.map_cons, List.sum_cons, ih, List.length_cons]
    push_cast
    ring

lemma listSum_map_div (xs : List ℝ) (c : ℝ) :
    (xs.map (fun x => x / c)).sum = xs.sum / c := by
  induction xs with
  | nil => simp
  | cons a l ih => simp [ih, add_div]

lemma centred_sum (xs : List ℝ) : (xs.map (fun x => x - npMean xs)).sum = 0 := by
  rw [listSum_map_sub, npMean]
  rcases eq_or_ne ((xs.length : ℝ)) 0 with h | h
  · have hnil : xs = [] := List.length_eq_zero.mp (Nat.cast_eq_zero.mp h)
    simp [hnil]
  · rw [mul_div_cancel₀ _ h, sub_self]

lemma npMean_centred (xs : List ℝ) :
    npMean (xs.map (fun x => x - npMean xs)) = 0 := by
  rw [npMean, centred_sum, zero_div]

lemma npStd_mean_zero (ys : List ℝ) (h : npMean ys = 0) :
    npStd ys = Real.sqrt ((ys.map (fun y => y ^ 2)).sum / ys.length) := by
  simp [npStd, h]

lemma sum_sq_nonneg (ys : List ℝ) : 0 ≤ (ys.map (fun y => y ^ 2)).sum := by
  apply List.sum_nonneg
  intro z hz
  obtain ⟨y, _, rfl⟩ := List.mem_map.mp hz
  positivity

lemma npStd_centred (xs : List ℝ) :
    npStd (xs.map (fun x => x - npMean xs)) = npStd xs := by
  rw [npStd_mean_zero _ (npMean_centred xs)]
  simp [npStd, List.map_map, Function.comp_def]

lemma normalized_spec (ys : List ℝ) (hmean : npMean ys = 0)
    (hstd : npStd ys ≠ 0) :
    npMean (ys.map (fun y => y / npStd ys)) = 0
    ∧ npStd (ys.map (fun y => y / npStd ys)) = 1 := by
  have hV : (0 : ℝ) ≤ (ys.map (fun y => y ^ 2)).sum / (ys.length : ℝ) :=
    div_nonneg (sum_sq_nonneg ys) (Nat.cast_nonneg _)
  have hs : npStd ys = Real.sqrt ((ys.map (fun y => y ^ 2)).sum / (ys.length : ℝ)) :=
    npStd_mean_zero ys hmean
  have hs2 : npStd ys ^ 2 = (ys.map (fun y => y ^ 2)).sum / (ys.length : ℝ) := by
    rw [hs, Real.sq_sqrt hV]
  have hsum0 : ys.sum = 0 := by
    have hlen : (ys.length : ℝ) ≠ 0 := by
      intro h0
      have hnil : ys = [] := List.length_eq_zero.mp (Nat.cast_eq_zero.mp h0)
      apply hstd
      simp [hnil, npStd]
    have := hmean
    rw [npMean, div_eq_zero_iff] at this
    tauto
  have hmean' : npMean (ys.map (fun y => y / npStd ys)) = 0 := by
    simp [npMean, listSum_map_div, hsum0]
  refine ⟨hmean', ?_⟩
  rw [npStd_mean_zero _ hmean']
  have hfun : ((fun y => y ^ 2) ∘ fun y => y / npStd ys) =
      ((fun x => x / npStd ys ^ 2) ∘ fun y => y ^ 2) := by
    funext y
    simp only [Function.comp_apply]
    rw [div_pow]
  have hsq : ((ys.map (fun y => y / npStd ys)).map (fun y => y ^ 2)).sum =
      (ys.map (fun y => y ^ 2)).sum / npStd ys ^ 2 := by
    rw [List.map_map, hfun, ← List.map_map, listSum_map_div]
  rw [hsq, List.length_map, div_right_comm, ← hs2,
    div_self (pow_ne_zero 2 hstd), Real.sqrt_one]

/-- C3 (amended): for every reward sequence of length at least 2 whose
pre-normalization discounted returns have nonzero standard deviation, the
output of `compute_returns` has mean 0 and standard deviation 1.  (The
nonzero-standard-deviation proviso is forced: for rewards `[0, 0]` the
returns are all equal and the normalization divides by a zero standard
deviation, see the counterexample.) -/
theorem C3_normalized_mean_std (rewards : List ℝ) (gamma : ℝ)
    (hlen : 2 ≤ rewards.length)
    (hstd : npStd (compute_returns_pre rewards gamma) ≠ 0) :
    npMean (compute_returns rewards gamma) = 0
    ∧ npStd (compute_returns rewards gamma) = 1 := by
  have hstd' : npStd ((compute_returns_pre rewards gamma).map
      (fun x => x - npMean (compute_returns_pre rewards gamma))) ≠ 0 := by
    rw [npStd_centred]
    exact hstd
  exact normalized_spec _ (npMean_centred _) hstd'

/-- C3 counterexample: the claim as stated fails at rewards `[0, 0]` (length
2): the pre-normalization returns are `[0, 0]` with standard deviation 0, the
normalization divides by it (numpy would produce `nan`; in the real-number
model with `x / 0 = 0` the result is `[0, 0]`), and the output's standard
deviation is 0, not 1. -/
theorem C3_counterexample :
    ([(0 : ℝ), 0]).length = 2
    ∧ npStd (compute_returns_pre [(0 : ℝ), 0] 1) = 0
    ∧ npStd (compute_returns [(0 : ℝ), 0] 1) = 0
    ∧ (0 : ℝ) ≠ 1 := by
  have hpre : compute_returns_pre [(0 : ℝ), 0] 1 = [0, 0] := by
    norm_num [compute_returns_pre]
  refine ⟨by norm_num, ?_, ?_, by norm_num⟩
  · rw [hpre]
    norm_num [npStd, npMean, Real.sqrt_zero]
  · rw [compute_returns, hpre]
    norm_num [npStd, npMean, Real.sqrt_zero]

/-- C3 witness: rewards `[2, 0]` with `gamma = 1` have length 2 and returns
`[2, 0]` with nonzero standard deviation, and the normalized output has mean
0 and standard deviation 1. -/
theorem C3_witness :
    2 ≤ ([(2 : ℝ), 0]).length
    ∧ npStd (compute_returns_pre [(2 : ℝ), 0] 1) ≠ 0
    ∧ npMean (compute_returns [(2 : ℝ), 0] 1) = 0
    ∧ npStd (compute_returns [(2 : ℝ), 0] 1) = 1 := by
  have hpre : compute_returns_pre [(2 : ℝ), 0] 1 = [2, 0] := by
    norm_num [compute_returns_pre]
  have hlen : 2 ≤ ([(2 : ℝ), 0]).length := by norm_num
  have hstd : npStd (compute_returns_pre [(2 : ℝ), 0] 1) ≠ 0 := by
    rw [hpre]
    have harg : (([(2 : ℝ), 0]).map
        (fun x => (x - npMean [(2 : ℝ), 0]) ^ 2)).sum / (([(2 : ℝ), 0]).length : ℝ)
        = (1 : ℝ) := by
      norm_num [npMean]
    have h1 : npStd [(2 : ℝ), 0] = 1 := by
      simp only [npStd]
      rw [harg, Real.sqrt_one]
    rw [h1]
    norm_num
  exact ⟨hlen, hstd, (C3_normalized_mean_std [2, 0] 1 hlen hstd).1,
    (C3_normalized_mean_std [2, 0] 1 hlen hstd).2⟩

/-- C4 (code bug): for the single-element reward sequence `[5]` the
normalization step's divisor — `returns.std()` of the centred array — is
exactly 0 and the code divides by it unconditionally (numpy produces `nan`;
in the real-number model with `x / 0 = 0` the output is `[0]`), so the
behaviour is not the claimed defined fallback such as returning the raw
reward `[5]`. -/
theorem C4_single_element_zero_std_divisor :
    npStd ((compute_returns_pre [(5 : ℝ)] (99 / 100)).map
      (fun x => x - npMean (compute_returns_pre [(5 : ℝ)] (99 / 100)))) = 0
    ∧ compute_returns [(5 : ℝ)] (99 / 100) = [0]
    ∧ ([(0 : ℝ)] : List ℝ) ≠ [5] := by
  have hpre : compute_returns_pre [(5 : ℝ)] (99 / 100) = [5] := by
    norm_num [compute_returns_pre]
  refine ⟨?_, ?_, by norm_num⟩
  · rw [hpre]
    norm_num [npStd, npMean, Real.sqrt_zero]
  · simp only [compute_returns, hpre]
    norm_num [npStd, npMean, Real.sqrt_zero]

/-! ### Shapes of the network forward pass -/

lemma Linear.apply_eq_some {α : Type} [LinearOrderedField α] {inF outF : ℕ}
    (l : Linear α inF outF) (x : List α) (hx : x.length = inF) :
    l.apply x =
      some (List.ofFn fun o => (∑ i : Fin inF, l.weight o i * x.getD i.1 0) + l.bias o) := by
  rw [Linear.apply, if_pos hx]

lemma Linear.apply_eq_none {α : Type} [LinearOrderedField α] {inF outF : ℕ}
    (l : Linear α inF outF) (x : List α) (hx : x.length ≠ inF) :
    l.apply x = none := by
  rw [Linear.apply, if_neg hx]

lemma Linear.apply_length {α : Type} [LinearOrderedField α] {inF outF : ℕ}
    {l : Linear α inF outF} {x y : List α} (h : l.apply x = some y) :
    y.length = outF := by
  rw [Linear.apply] at h
  split at h
  · cases h
    simp
  · cases h

lemma Linear.apply_isSome_iff {α : Type} [LinearOrderedField α] {inF outF : ℕ}
    (l : Linear α inF outF) (x : List α) :
    (l.apply x).isSome ↔ x.length = inF := by
  rw [Linear.apply]
  split <;> simp [*]

/-- When the hidden width is the hard-coded `128`, the forward pass on an
in-shape observation succeeds, and both the distribution's logits and the
returned value tensor are the same single-element list. -/
lemma Net.forward_eq_some {α : Type} [LinearOrderedField α] {s a : ℕ}
    (net : Net α s 128 a) (x : List α) (hx : x.length = s) :
    ∃ v : α, net.forward x = some (Categorical.ofLogits [v], [v]) := by
  obtain ⟨x0, hx0⟩ : ∃ x0, net.fc_shared.apply x = some x0 :=
    ⟨_, net.fc_shared.apply_eq_some x hx⟩
  have hx0len : x0.length = 128 := Linear.apply_length hx0
  have hx1len : (x0.map (fun v => max v 0)).length = 128 := by
    simpa using hx0len
  obtain ⟨lg, hlg⟩ : ∃ lg, net.fc_policy.apply (x0.map (fun v => max v 0)) = some lg :=
    ⟨_, net.fc_policy.apply_eq_some _ hx1len⟩
  obtain ⟨vl, hvl⟩ : ∃ vl, net.fc_value_function.apply (x0.map (fun v => max v 0)) = some vl :=
    ⟨_, net.fc_value_function.apply_eq_some _ hx1len⟩
  have hvllen : vl.length = 1 := Linear.apply_length hvl
  obtain ⟨v, hv⟩ : ∃ v, vl = [v] := List.length_eq_one.mp hvllen
  refine ⟨v, ?_⟩
  rw [Net.forward, hx0]
  simp only [hlg, hvl, hv]

/-- C10: for every observation of the declared input length, the forward
pass succeeds exactly when the hidden width equals the hard-coded value-head
input width `128`; any other `h_size` makes the value head's shape check
fail. -/
theorem C10_value_head_width_hardcoded {α : Type} [LinearOrderedField α]
    {s h a : ℕ} (net : Net α s h a) (x : List α) (hx : x.length = s) :
    (net.forward x).isSome ↔ h = 128 := by
  constructor
  · intro hsome
    obtain ⟨x0, hx0⟩ : ∃ x0, net.fc_shared.apply x = some x0 :=
      ⟨_, net.fc_shared.apply_eq_some x hx⟩
    have hx0len : x0.length = h := Linear.apply_length hx0
    rw [Net.forward, hx0] at hsome
    by_contra hne
    have hx1len : (x0.map (fun v => max v 0)).length = h := by simpa using hx0len
    have hval : net.fc_value_function.apply (x0.map (fun v => max v 0)) = none :=
      Linear.apply_eq_none _ _ (by simpa [hx1len] using hne)
    have hpol := (Linear.apply_isSome_iff net.fc_policy (x0.map (fun v => max v 0))).mpr hx1len
    obtain ⟨lg, hlg⟩ := Option.isSome_iff_exists.mp hpol
    simp only [hlg, hval, Option.isSome_none] at hsome
    exact Bool.false_ne_true hsome
  · intro h128
    subst h128
    obtain ⟨v, hv⟩ := net.forward_eq_some x hx
    simp [hv]

/-- A small network with `h_size = 3` and the all-zero default-shape network,
used as concrete instances. -/
def zeroLinear {α : Type} [LinearOrderedField α] (inF outF : ℕ) : Linear α inF outF :=
  ⟨fun _ _ => 0, fun _ => 0⟩

def netSmall : Net ℚ 1 3 1 :=
  ⟨zeroLinear 1 3, zeroLinear 3 1, zeroLinear 128 1⟩

def netDefault : Net ℚ 8 128 4 :=
  ⟨zeroLinear 8 128, zeroLinear 128 4, zeroLinear 128 1⟩

/-- C10 witness: applying the theorem at the concrete networks: the forward
pass of a `h_size = 3` network fails on a length-1 observation, and the
default `h_size = 128` network succeeds on a length-8 observation. -/
theorem C10_witness :
    ¬ (netSmall.forward [0]).isSome
    ∧ (netDefault.forward (List.replicate 8 0)).isSome := by
  constructor
  · intro hsome
    have h3 := (C10_value_head_width_hardcoded netSmall [0] (by decide)).mp hsome
    exact absurd h3 (by decide)
  · exact (C10_value_head_width_hardcoded netDefault (List.replicate 8 0)
      (by simp)).mpr rfl

/-! ### The `Categorical(logits=value)` defect and its consequences -/

lemma zeroLinear_apply {α : Type} [LinearOrderedField α] {inF outF : ℕ}
    (x : List α) (hx : x.length = inF) :
    (zeroLinear inF outF : Linear α inF outF).apply x = some (List.replicate outF 0) := by
  rw [Linear.apply_eq_some _ _ hx]
  congr 1
  have : (fun o : Fin outF =>
      (∑ i : Fin inF, (zeroLinear inF outF : Linear α inF outF).weight o i * x.getD i.1 0)
        + (zeroLinear inF outF : Linear α inF outF).bias o) = fun _ => (0 : α) := by
    funext o
    simp [zeroLinear]
  rw [this, List.ofFn_const]

/-- The all-zero network with the notebook's default shape, over `ℝ`. -/
noncomputable def netR0 : Net ℝ 8 128 4 :=
  ⟨zeroLinear 8 128, zeroLinear 128 4, zeroLinear 128 1⟩

lemma netR0_forward :
    netR0.forward (List.replicate 8 (0 : ℝ)) =
      some (Categorical.ofLogits [0], [0]) := by
  have h1 : (zeroLinear 8 128 : Linear ℝ 8 128).apply (List.replicate 8 0) =
      some (List.replicate 128 0) := zeroLinear_apply _ (by simp)
  have hrelu : (List.replicate 128 (0 : ℝ)).map (fun v => max v 0) =
      List.replicate 128 0 := by
    simp [List.map_replicate]
  have h2 : (zeroLinear 128 4 : Linear ℝ 128 4).apply (List.replicate 128 0) =
      some (List.replicate 4 0) := zeroLinear_apply _ (by simp)
  have h3 : (zeroLinear 128 1 : Linear ℝ 128 1).apply (List.replicate 128 0) =
      some (List.replicate 1 0) := zeroLinear_apply _ (by simp)
  simp only [netR0, Net.forward, h1, hrelu, h2, h3]
  rfl

/-- C1 (code bug): `Net.forward` builds the action distribution from the
value-head output, not the policy-head logits.  Evaluated at the zero
observation with the default-shape network, the forward pass returns the
distribution `Categorical(logits=value)` whose cardinality is 1, not the
action-space size 4. -/
theorem C1_distribution_built_from_value_head :
    netR0.forward (List.replicate 8 (0 : ℝ)) =
      some (Categorical.ofLogits [0], [0])
    ∧ (Categorical.ofLogits [(0 : ℝ)]).numCategories = 1
    ∧ (Categorical.ofLogits [(0 : ℝ)]).numCategories ≠ 4 :=
  ⟨netR0_forward, rfl, by decide⟩

/-- Inversion of a successful forward pass: the distribution is built from
the returned value tensor, which has exactly one entry. -/
lemma Net.forward_inv {α : Type} [LinearOrderedField α] {s h a : ℕ}
    {net : Net α s h a} {x : List α} {d : Categorical α} {v : List α}
    (hf : net.forward x = some (d, v)) :
    d = Categorical.ofLogits v ∧ v.length = 1 := by
  rw [Net.forward] at hf
  split at hf
  · cases hf
  · dsimp only at hf
    split at hf
    · cases hf
    · split at hf
      · cases hf
      · rename_i vl hvl
        injection hf with hpair
        injection hpair with hd hv
        subst hd
        subst hv
        exact ⟨rfl, Linear.apply_length hvl⟩

/-- C8: whenever the forward pass succeeds, the action distribution is the
one built from the single-entry value tensor, has exactly one category,
sampling it with any uniform draw `u ∈ [0, 1)` yields action `0`, and the
log-probability of the sampled action is `0` — so in training every taken
action is `0` with recorded log-probability `0`. -/
theorem C8_single_category_always_action_zero {s h a : ℕ} (net : Net ℝ s h a)
    (x : List ℝ) (d : Categorical ℝ) (v : List ℝ) (u : ℝ)
    (hf : net.forward x = some (d, v)) (hu0 : 0 ≤ u) (hu1 : u < 1) :
    d = Categorical.ofLogits v ∧ d.numCategories = 1
    ∧ d.sample u = 0 ∧ d.logProb (d.sample u) = 0 := by
  obtain ⟨hd, hvlen⟩ := Net.forward_inv hf
  obtain ⟨v0, hv0⟩ := List.length_eq_one.mp hvlen
  subst hd
  subst hv0
  have hprobs : (Categorical.ofLogits [v0]).probs = [1] := by
    simp [Categorical.probs, Categorical.ofLogits, div_self (Real.exp_ne_zero v0)]
  have hsample : (Categorical.ofLogits [v0]).sample u = 0 := by
    rw [Categorical.sample, hprobs, sampleFromProbs, if_pos hu1]
  refine ⟨rfl, rfl, hsample, ?_⟩
  rw [hsample]
  simp [Categorical.logProb, Categorical.ofLogits, Real.log_exp]

/-- C8 witness: at the all-zero default-shape network, the zero observation
and the uniform draw `u = 1/2`, the sampled action is `0` and its recorded
log-probability is `0`. -/
theorem C8_witness :
    (Categorical.ofLogits [(0 : ℝ)]).numCategories = 1
    ∧ (Categorical.ofLogits [(0 : ℝ)]).sample (1 / 2) = 0
    ∧ (Categorical.ofLogits [(0 : ℝ)]).logProb
        ((Categorical.ofLogits [(0 : ℝ)]).sample (1 / 2)) = 0 := by
  have h := C8_single_category_always_action_zero netR0 (List.replicate 8 0)
    (Categorical.ofLogits [0]) [0] (1 / 2) netR0_forward (by norm_num) (by norm_num)
  exact ⟨h.2.1, h.2.2.1, h.2.2.2⟩

/-! ### The composite loss of `reinforce_learned_baseline` as a function of
the parameters.

The episode's per-step quantities are recorded through `Net.forward`:
`log_probs[t] = dist.log_prob(action[t])` and `values[t] = value[0]`.
`delta.detach()` freezes the advantage at the parameters current when the
loss is built: `lossOf netD netP` is the loss as a function of the live
parameters `netP`, with the detached advantage evaluated at the frozen
copy `netD`; the run-time loss value is `lossOf net net ...`, and a
parameter's gradient is the derivative of `t ↦ lossOf net (p t) ...` along
a path `p` varying that parameter. -/

noncomputable def logProbOf {s h a : ℕ} (net : Net ℝ s h a) (x : List ℝ)
    (act : ℕ) : ℝ :=
  ((net.forward x).map (fun p => p.1.logProb act)).getD 0

noncomputable def valueOf {s h a : ℕ} (net : Net ℝ s h a) (x : List ℝ) : ℝ :=
  ((net.forward x).map (fun p => p.2.getD 0 0)).getD 0

noncomputable def stepLogProbs (net : Net ℝ 8 128 4) (states : List (List ℝ))
    (actions : List ℕ) : List ℝ :=
  List.zipWith (fun x act => logProbOf net x act) states actions

noncomputable def stepValues (net : Net ℝ 8 128 4) (states : List (List ℝ)) :
    List ℝ :=
  states.map (fun x => valueOf net x)

/-- The term `policy_loss = torch.sum(log_probs * delta)` with
`delta = (returns - values).detach()` evaluated at the frozen copy `netD`. -/
noncomputable def policyLossOf (netD netP : Net ℝ 8 128 4)
    (states : List (List ℝ)) (actions : List ℕ) (returns : List ℝ) : ℝ :=
  (List.zipWith (fun lp dl => lp * dl) (stepLogProbs netP states actions)
    (List.zipWith (fun G v => G - v) returns (stepValues netD states))).sum

/-- The term `value_function_loss = 1/2 * torch.sum(abs(returns - values)**2)`. -/
noncomputable def valueLossOf (net : Net ℝ 8 128 4) (states : List (List ℝ))
    (returns : List ℝ) : ℝ :=
  1 / 2 * (List.zipWith (fun G v => |G - v| ^ 2) returns (stepValues net states)).sum

/-- The composite `loss = policy_loss + value_function_loss`. -/
noncomputable def lossOf (netD netP : Net ℝ 8 128 4) (states : List (List ℝ))
    (actions : List ℕ) (returns : List ℝ) : ℝ :=
  policyLossOf netD netP states actions returns + valueLossOf netP states returns

lemma logProbOf_zero {s a : ℕ} (net : Net ℝ s 128 a) (x : List ℝ)
    (hx : x.length = s) : logProbOf net x 0 = 0 := by
  obtain ⟨v, hv⟩ := net.forward_eq_some x hx
  simp [logProbOf, hv, Categorical.logProb, Categorical.ofLogits, Real.log_exp]

lemma zipWith_mul_sum_zero :
    ∀ (l1 l2 : List ℝ), (∀ z ∈ l1, z = 0) →
      (List.zipWith (fun lp dl => lp * dl) l1 l2).sum = 0
  | [], _, _ => by simp
  | lp :: l1, [], _ => by simp
  | lp :: l1, dl :: l2, h => by
    simp only [List.zipWith_cons_cons, List.sum_cons]
    rw [h lp (by simp), zero_mul, zero_add,
      zipWith_mul_sum_zero l1 l2 (fun z hz => h z (by simp [hz]))]

lemma stepLogProbs_zero (net : Net ℝ 8 128 4) (states : List (List ℝ))
    (actions : List ℕ) (hs : ∀ st ∈ states, st.length = 8)
    (ha : ∀ act ∈ actions, act = 0) :
    ∀ z ∈ stepLogProbs net states actions, z = 0 := by
  induction states generalizing actions with
  | nil => simp [stepLogProbs]
  | cons st states ih =>
    cases actions with
    | nil => simp [stepLogProbs]
    | cons act actions =>
      intro z hz
      simp only [stepLogProbs, List.zipWith_cons_cons, List.mem_cons] at hz
      rcases hz with rfl | hz
      · rw [ha act (by simp)]
        exact logProbOf_zero net st (hs st (by simp))
      · exact ih actions (fun u hu => hs u (by simp [hu]))
          (fun u hu => ha u (by simp [hu])) z hz

lemma policyLossOf_zero (netD netP : Net ℝ 8 128 4) (states : List (List ℝ))
    (actions : List ℕ) (returns : List ℝ) (hs : ∀ st ∈ states, st.length = 8)
    (ha : ∀ act ∈ actions, act = 0) :
    policyLossOf netD netP states actions returns = 0 :=
  zipWith_mul_sum_zero _ _ (stepLogProbs_zero netP states actions hs ha)

/-- The forward pass does not depend on the policy head at all: its output
is never used (the distribution is built from the value head). -/
lemma Net.forward_policy_irrel {α : Type} [LinearOrderedField α] {s h a : ℕ}
    (net : Net α s h a) (alt : Linear α h a) (x : List α) :
    ({ net with fc_policy := alt } : Net α s h a).forward x = net.forward x := by
  cases hsh : net.fc_shared.apply x with
  | none => simp [Net.forward, hsh]
  | some x0 =>
    simp only [Net.forward, hsh]
    by_cases hlen : (x0.map (fun v => max v 0)).length = h
    · obtain ⟨lg1, h1⟩ := Option.isSome_iff_exists.mp
        ((Linear.apply_isSome_iff alt _).mpr hlen)
      obtain ⟨lg2, h2⟩ := Option.isSome_iff_exists.mp
        ((Linear.apply_isSome_iff net.fc_policy _).mpr hlen)
      simp only [h1, h2]
    · rw [Linear.apply_eq_none _ _ hlen, Linear.apply_eq_none _ _ hlen]

/-- The composite loss does not depend on the policy-head parameters. -/
lemma lossOf_policy_irrel (netD netP : Net ℝ 8 128 4) (alt : Linear ℝ 128 4)
    (states : List (List ℝ)) (actions : List ℕ) (returns : List ℝ) :
    lossOf netD ({ netP with fc_policy := alt }) states actions returns =
      lossOf netD netP states actions returns := by
  simp only [lossOf, policyLossOf, valueLossOf, stepLogProbs, stepValues,
    logProbOf, valueOf, Net.forward_policy_irrel]

/-! ### Concrete parameter paths for the gradient statements -/

lemma biasOnly_apply {α : Type} [LinearOrderedField α] {inF outF : ℕ}
    (b : Fin outF → α) (x : List α) (hx : x.length = inF) :
    (⟨fun _ _ => 0, b⟩ : Linear α inF outF).apply x = some (List.ofFn b) := by
  rw [Linear.apply_eq_some _ _ hx]
  simp

lemma getD_ofFn {α : Type} {n : ℕ} (g : Fin n → α) (i : Fin n) (d : α) :
    (List.ofFn g).getD i.1 d = g i := by
  rw [List.getD_eq_getElem _ d (by simpa using i.2)]
  simp

/-- A network whose only nonzero parameter is the value-head bias, set
to `t`. -/
noncomputable def netVpath (t : ℝ) : Net ℝ 8 128 4 :=
  ⟨zeroLinear 8 128, zeroLinear 128 4, ⟨fun _ _ => 0, fun _ => t⟩⟩

/-- A network whose first shared-trunk bias is `t` and whose value-head
weights are all ones. -/
noncomputable def netTpath (t : ℝ) : Net ℝ 8 128 4 :=
  ⟨⟨fun _ _ => 0, fun j => if j = 0 then t else 0⟩, zeroLinear 128 4,
    ⟨fun _ _ => 1, fun _ => 0⟩⟩

/-- A network whose only nonzero parameter is the first policy-head bias,
set to `t`. -/
noncomputable def netPpath (t : ℝ) : Net ℝ 8 128 4 :=
  ⟨zeroLinear 8 128, ⟨fun _ _ => 0, fun o => if o = 0 then t else 0⟩,
    zeroLinear 128 1⟩

lemma netVpath_forward (t : ℝ) :
    (netVpath t).forward (List.replicate 8 0) =
      some (Categorical.ofLogits [t], [t]) := by
  have h1 : (zeroLinear 8 128 : Linear ℝ 8 128).apply (List.replicate 8 0) =
      some (List.replicate 128 0) := zeroLinear_apply _ (by simp)
  have hrelu : (List.replicate 128 (0 : ℝ)).map (fun v => max v 0) =
      List.replicate 128 0 := by
    simp [List.map_replicate]
  have h2 : (zeroLinear 128 4 : Linear ℝ 128 4).apply (List.replicate 128 0) =
      some (List.replicate 4 0) := zeroLinear_apply _ (by simp)
  have h3 : (⟨fun _ _ => 0, fun _ => t⟩ : Linear ℝ 128 1).apply
      (List.replicate 128 0) = some (List.ofFn fun _ : Fin 1 => t) :=
    biasOnly_apply _ _ (by simp)
  simp only [netVpath, Net.forward, h1, hrelu, h2, h3]
  rfl

lemma valueOf_netVpath (t : ℝ) :
    valueOf (netVpath t) (List.replicate 8 0) = t := by
  simp only [valueOf, netVpath_forward, Option.map_some', Option.getD_some]
  rfl

lemma netTpath_forward (t : ℝ) :
    (netTpath t).forward (List.replicate 8 0) =
      some (Categorical.ofLogits [max t 0], [max t 0]) := by
  have h1 : (⟨fun _ _ => 0, fun j : Fin 128 => if j = 0 then t else 0⟩ :
      Linear ℝ 8 128).apply (List.replicate 8 0) =
      some (List.ofFn fun j : Fin 128 => if j = 0 then t else 0) :=
    biasOnly_apply _ _ (by simp)
  have hrelu : (List.ofFn fun j : Fin 128 => if j = 0 then t else 0).map
      (fun v => max v 0) =
      List.ofFn fun j : Fin 128 => max (if j = 0 then t else 0) 0 := by
    rw [List.map_ofFn]
    rfl
  have h2 : (zeroLinear 128 4 : Linear ℝ 128 4).apply
      (List.ofFn fun j : Fin 128 => max (if j = 0 then t else 0) 0) =
      some (List.replicate 4 0) := zeroLinear_apply _ (List.length_ofFn _)
  have hsum : (∑ i : Fin 128,
      (1 : ℝ) * (List.ofFn fun j : Fin 128 =>
        max (if j = 0 then t else 0) 0).getD i.1 0) = max t 0 := by
    have hterm : ∀ i : Fin 128,
        (1 : ℝ) * (List.ofFn fun j : Fin 128 =>
          max (if j = 0 then t else 0) 0).getD i.1 0 =
          if i = 0 then max t 0 else 0 := by
      intro i
      rw [one_mul, getD_ofFn]
      split <;> simp
    rw [Finset.sum_congr rfl (fun i _ => hterm i)]
    simp
  have h3 : (⟨fun _ _ => 1, fun _ => 0⟩ : Linear ℝ 128 1).apply
      (List.ofFn fun j : Fin 128 => max (if j = 0 then t else 0) 0) =
      some [max t 0] := by
    rw [Linear.apply_eq_some _ _ (List.length_ofFn _)]
    congr 1
    have : (fun o : Fin 1 => (∑ i : Fin 128,
        (⟨fun _ _ => 1, fun _ => 0⟩ : Linear ℝ 128 1).weight o i *
          (List.ofFn fun j : Fin 128 =>
            max (if j = 0 then t else 0) 0).getD i.1 0) +
        (⟨fun _ _ => 1, fun _ => 0⟩ : Linear ℝ 128 1).bias o) =
        fun _ : Fin 1 => max t 0 := by
      funext o
      show (∑ i : Fin 128, (1 : ℝ) * (List.ofFn fun j : Fin 128 =>
        max (if j = 0 then t else 0) 0).getD i.1 0) + 0 = max t 0
      rw [hsum, add_zero]
    rw [this]
    rfl
  simp only [netTpath, Net.forward, h1, hrelu, h2, h3]

lemma valueOf_netTpath (t : ℝ) :
    valueOf (netTpath t) (List.replicate 8 0) = max t 0 := by
  simp only [valueOf, netTpath_forward, Option.map_some', Option.getD_some]
  rfl

lemma lossOf_netVpath (t : ℝ) :
    lossOf netR0 (netVpath t) [List.replicate 8 0] [0] [3] =
      1 / 2 * ((3 : ℝ) - t) ^ 2 := by
  have hpl : policyLossOf netR0 (netVpath t) [List.replicate 8 0] [0] [3] = 0 :=
    policyLossOf_zero _ _ _ _ _
      (by intro st hst; rw [List.mem_singleton] at hst; subst hst; simp)
      (by intro act hact; rw [List.mem_singleton] at hact; exact hact)
  have hv : valueOf (netVpath t) ([0, 0, 0, 0, 0, 0, 0, 0] : List ℝ) = t :=
    valueOf_netVpath t
  rw [lossOf, hpl, zero_add, valueLossOf]
  simp [stepValues, hv, sq_abs]

lemma lossOf_netTpath (t : ℝ) :
    lossOf netR0 (netTpath t) [List.replicate 8 0] [0] [3] =
      1 / 2 * ((3 : ℝ) - max t 0) ^ 2 := by
  have hpl : policyLossOf netR0 (netTpath t) [List.replicate 8 0] [0] [3] = 0 :=
    policyLossOf_zero _ _ _ _ _
      (by intro st hst; rw [List.mem_singleton] at hst; subst hst; simp)
      (by intro act hact; rw [List.mem_singleton] at hact; exact hact)
  have hv : valueOf (netTpath t) ([0, 0, 0, 0, 0, 0, 0, 0] : List ℝ) = max t 0 :=
    valueOf_netTpath t
  rw [lossOf, hpl, zero_add, valueLossOf]
  simp [stepValues, hv, sq_abs]

lemma hasDeriv_half_sq (c x : ℝ) :
    HasDerivAt (fun t : ℝ => 1 / 2 * (c - t) ^ 2) (-(c - x)) x := by
  have h0 : HasDerivAt (fun t : ℝ => c - t) (-1) x := (hasDerivAt_id x).const_sub c
  have h2 := (h0.pow 2).const_mul (1 / 2 : ℝ)
  convert h2 using 1
  push_cast
  ring

/-- C5 (amended): the advantage is detached, and because of the
single-category distribution the recorded log-probabilities vanish, so the
policy loss is identically zero: along any parameter path (value head
included) its derivative is 0.  The composite loss never depends on the
policy-head parameters at all (replacing `fc_policy` leaves it unchanged),
so their gradient is always zero — not nonzero, as claimed — while
value-head and shared-trunk parameters do receive nonzero gradient at the
given concrete episode data. -/
theorem C5_detached_advantage_gradients :
    (∀ (netD : Net ℝ 8 128 4) (p : ℝ → Net ℝ 8 128 4) (states : List (List ℝ))
      (actions : List ℕ) (returns : List ℝ) (t0 : ℝ),
      (∀ st ∈ states, st.length = 8) → (∀ act ∈ actions, act = 0) →
      HasDerivAt (fun t => policyLossOf netD (p t) states actions returns) 0 t0)
    ∧ (∀ (netD netP : Net ℝ 8 128 4) (alt : Linear ℝ 128 4)
        (states : List (List ℝ)) (actions : List ℕ) (returns : List ℝ),
      lossOf netD ({ netP with fc_policy := alt }) states actions returns =
        lossOf netD netP states actions returns)
    ∧ HasDerivAt (fun t => lossOf netR0 (netVpath t)
        [List.replicate 8 0] [0] [3]) (-3) 0
    ∧ ((-3 : ℝ) ≠ 0)
    ∧ HasDerivAt (fun t => lossOf netR0 (netTpath t)
        [List.replicate 8 0] [0] [3]) (-2) 1
    ∧ ((-2 : ℝ) ≠ 0) := by
  refine ⟨?_, lossOf_policy_irrel, ?_, by norm_num, ?_, by norm_num⟩
  · intro netD p states actions returns t0 hs ha
    have hzero : (fun t => policyLossOf netD (p t) states actions returns) =
        fun _ => (0 : ℝ) :=
      funext fun t => policyLossOf_zero netD (p t) states actions returns hs ha
    rw [hzero]
    exact hasDerivAt_const t0 0
  · have hfun : (fun t => lossOf netR0 (netVpath t)
        [List.replicate 8 0] [0] [3]) = fun t => 1 / 2 * ((3 : ℝ) - t) ^ 2 :=
      funext lossOf_netVpath
    rw [hfun]
    have := hasDeriv_half_sq 3 0
    norm_num at this
    exact this
  · have hfun : (fun t => lossOf netR0 (netTpath t)
        [List.replicate 8 0] [0] [3]) =
        fun t => 1 / 2 * ((3 : ℝ) - max t 0) ^ 2 :=
      funext lossOf_netTpath
    have hsmooth : HasDerivAt (fun t : ℝ => 1 / 2 * ((3 : ℝ) - t) ^ 2) (-2) 1 := by
      have := hasDeriv_half_sq 3 1
      norm_num at this
      exact this
    have hev : (fun t : ℝ => 1 / 2 * ((3 : ℝ) - max t 0) ^ 2) =ᶠ[nhds 1]
        (fun t : ℝ => 1 / 2 * ((3 : ℝ) - t) ^ 2) := by
      filter_upwards [Ioi_mem_nhds (by norm_num : (0 : ℝ) < 1)] with t ht
      rw [max_eq_left ht.le]
    rw [hfun]
    exact hsmooth.congr_of_eventuallyEq hev

/-- C5 counterexample: at concrete episode data, the derivative of the
composite loss along the first policy-head bias is 0 — the composite loss
does not update the policy head, contradicting the claim that it produces
nonzero gradients for both heads. -/
theorem C5_counterexample :
    deriv (fun t => lossOf netR0 (netPpath t) [List.replicate 8 0] [0] [3]) 0 = 0 := by
  have hfun : (fun t => lossOf netR0 (netPpath t) [List.replicate 8 0] [0] [3]) =
      fun _ => lossOf netR0 netR0 [List.replicate 8 0] [0] [3] := by
    funext t
    have h1 : netPpath t =
        { netR0 with fc_policy := ⟨fun _ _ => 0, fun o => if o = 0 then t else 0⟩ } := rfl
    rw [h1, lossOf_policy_irrel]
  rw [hfun]
  exact deriv_const 0 _

/-- C5 witness: the zero-derivative statement for the policy loss applied at
the concrete value-bias path, concrete states, actions and returns. -/
theorem C5_witness :
    HasDerivAt (fun t => policyLossOf netR0 (netVpath t)
      [List.replicate 8 (0 : ℝ)] [0] [3]) 0 0 :=
  C5_detached_advantage_gradients.1 netR0 netVpath [List.replicate 8 0] [0] [3] 0
    (by intro st hst; rw [List.mem_singleton] at hst; subst hst; simp)
    (by intro act hact; rw [List.mem_singleton] at hact; exact hact)

/-! ### The per-episode bookkeeping of `reinforce_learned_baseline`.

One iteration of `for episode in range(1, number_episodes+1)` after
trajectory collection: append `sum(rewards)` to `scores` and to the
`deque(maxlen=50)`, compute the normalized returns, assemble
`loss = policy_loss + value_function_loss`, and call
`optimizer.zero_grad(); loss.backward(); optimizer.step()` once.  The
optimizer update itself (`Adam`) is abstracted as a function `upd` from the
current parameters and the episode's loss to the new parameters; the state
counts the `optimizer.step()` calls. -/

structure EpisodeData where
  rewards : List ℝ
  log_probs : List ℝ
  values : List ℝ

structure TrainState where
  net : Net ℝ 8 128 4
  scores : List ℝ
  scores_deque : List ℝ
  optimizer_steps : ℕ

/-- The loss assembled in the loop body: `delta = returns - values`
(then detached — a no-op on the value, modelled at the gradient level by
`lossOf`), `policy_loss = torch.sum(log_probs * delta)`,
`value_function_loss = 1/2 * torch.sum(abs(returns - values)**2)`,
`loss = policy_loss + value_function_loss`. -/
noncomputable def episodeLoss (gamma : ℝ) (ep : EpisodeData) : ℝ :=
  let returns := compute_returns ep.rewards gamma
  let delta := List.zipWith (fun G v => G - v) returns ep.values
  let policy_loss := (List.zipWith (fun lp dl => lp * dl) ep.log_probs delta).sum
  let value_function_loss :=
    1 / 2 * (List.zipWith (fun G v => |G - v| ^ 2) returns ep.values).sum
  policy_loss + value_function_loss

/-- Python `deque(maxlen=50).append`: when full, the oldest (leftmost) entry is
evicted. -/
def dequePush (d : List ℝ) (x : ℝ) : List ℝ :=
  if d.length = 50 then d.tail ++ [x] else d ++ [x]

/-- One completed episode of the training loop. -/
noncomputable def episodeStep (upd : Net ℝ 8 128 4 → ℝ → Net ℝ 8 128 4)
    (gamma : ℝ) (st : TrainState) (ep : EpisodeData) : TrainState :=
  { net := upd st.net (episodeLoss gamma ep),
    scores := st.scores ++ [ep.rewards.sum],
    scores_deque := dequePush st.scores_deque ep.rewards.sum,
    optimizer_steps := st.optimizer_steps + 1 }

/-- The training loop over episodes; `eps k` is episode `k`'s collected
trajectory data. -/
noncomputable def trainLoop (upd : Net ℝ 8 128 4 → ℝ → Net ℝ 8 128 4)
    (gamma : ℝ) (eps : ℕ → EpisodeData) (init : TrainState) : ℕ → TrainState
  | 0 => init
  | n + 1 => episodeStep upd gamma (trainLoop upd gamma eps init n) (eps n)

/-- C6: the loss is assembled as composite = policy + value, with the
policy term `Σ log_prob · detached-advantage` and the value term
`1/2 Σ (returns − values)²` (the source's `abs(·)**2` equals the square),
and the network is updated by exactly one optimizer step per completed
episode: after `n` episodes the step counter has advanced by `n`, and the
parameters after episode `n+1` are one `upd` application, with that
episode's composite loss, to the parameters after episode `n`. -/
theorem C6_composite_loss_single_update
    (upd : Net ℝ 8 128 4 → ℝ → Net ℝ 8 128 4) (gamma : ℝ)
    (eps : ℕ → EpisodeData) (init : TrainState) (n : ℕ) :
    (trainLoop upd gamma eps init n).optimizer_steps = init.optimizer_steps + n
    ∧ (trainLoop upd gamma eps init (n + 1)).net =
        upd (trainLoop upd gamma eps init n).net (episodeLoss gamma (eps n))
    ∧ ∀ ep : EpisodeData, episodeLoss gamma ep =
        (List.zipWith (fun lp dl => lp * dl) ep.log_probs
          (List.zipWith (fun G v => G - v)
            (compute_returns ep.rewards gamma) ep.values)).sum
        + 1 / 2 * (List.zipWith (fun G v => (G - v) ^ 2)
            (compute_returns ep.rewards gamma) ep.values).sum := by
  refine ⟨?_, rfl, ?_⟩
  · induction n with
    | zero => rfl
    | succ n ih => simp [trainLoop, episodeStep, ih, Nat.add_assoc]
  · intro ep
    have habs : (fun G v : ℝ => |G - v| ^ 2) = fun G v : ℝ => (G - v) ^ 2 := by
      funext G v
      rw [sq_abs]
    simp only [episodeLoss, habs]

lemma trainLoop_scores (upd : Net ℝ 8 128 4 → ℝ → Net ℝ 8 128 4) (gamma : ℝ)
    (eps : ℕ → EpisodeData) (net1 : Net ℝ 8 128 4) (n : ℕ) :
    (trainLoop upd gamma eps ⟨net1, [], [], 0⟩ n).scores =
      (List.range n).map (fun k => (eps k).rewards.sum) := by
  induction n with
  | zero => rfl
  | succ n ih => simp [trainLoop, episodeStep, ih, List.range_succ]

lemma dequePush_takeRight (s : List ℝ) (x : ℝ) :
    dequePush (s.drop (s.length - 50)) x =
      (s ++ [x]).drop ((s ++ [x]).length - 50) := by
  rcases lt_or_le s.length 50 with hlt | hge
  · have h0 : s.length - 50 = 0 := by omega
    have h1 : (s ++ [x]).length - 50 = 0 := by simp; omega
    rw [h0, h1, List.drop_zero, List.drop_zero, dequePush,
      if_neg (by omega)]
  · have hdlen : (s.drop (s.length - 50)).length = 50 := by
      rw [List.length_drop]
      omega
    have htail : (s.drop (s.length - 50)).tail = s.drop (s.length - 50 + 1) := by
      rw [← List.drop_one, List.drop_drop]
    have hidx : (s ++ [x]).length - 50 = s.length - 50 + 1 := by simp; omega
    rw [dequePush, if_pos hdlen, htail, hidx,
      List.drop_append_of_le_length (by omega)]

lemma trainLoop_deque (upd : Net ℝ 8 128 4 → ℝ → Net ℝ 8 128 4) (gamma : ℝ)
    (eps : ℕ → EpisodeData) (net1 : Net ℝ 8 128 4) (n : ℕ) :
    (trainLoop upd gamma eps ⟨net1, [], [], 0⟩ n).scores_deque =
      (trainLoop upd gamma eps ⟨net1, [], [], 0⟩ n).scores.drop
        ((trainLoop upd gamma eps ⟨net1, [], [], 0⟩ n).scores.length - 50) := by
  induction n with
  | zero => rfl
  | succ n ih =>
    show dequePush (trainLoop upd gamma eps ⟨net1, [], [], 0⟩ n).scores_deque
        (eps n).rewards.sum = _
    rw [ih]
    exact dequePush_takeRight _ _

/-- C7: after every completed episode the episode's total reward is appended
to the score history; after `n` episodes the 50-capacity deque holds exactly
the most recent `min 50 n` scores, and the reported rolling average
`np.mean(scores_deque)` is the plain arithmetic mean of those last
`min 50 n` recorded scores. -/
theorem C7_rolling_average (upd : Net ℝ 8 128 4 → ℝ → Net ℝ 8 128 4)
    (gamma : ℝ) (eps : ℕ → EpisodeData) (net1 : Net ℝ 8 128 4) (n : ℕ) :
    (trainLoop upd gamma eps ⟨net1, [], [], 0⟩ n).scores =
      (List.range n).map (fun k => (eps k).rewards.sum)
    ∧ (trainLoop upd gamma eps ⟨net1, [], [], 0⟩ n).scores_deque =
        (trainLoop upd gamma eps ⟨net1, [], [], 0⟩ n).scores.drop
          ((trainLoop upd gamma eps ⟨net1, [], [], 0⟩ n).scores.length - 50)
    ∧ (trainLoop upd gamma eps ⟨net1, [], [], 0⟩ n).scores_deque.length = min 50 n
    ∧ npMean (trainLoop upd gamma eps ⟨net1, [], [], 0⟩ n).scores_deque =
        ((trainLoop upd gamma eps ⟨net1, [], [], 0⟩ n).scores.drop
          ((trainLoop upd gamma eps ⟨net1, [], [], 0⟩ n).scores.length - 50)).sum
          / ((min 50 n : ℕ) : ℝ) := by
  have hscores := trainLoop_scores upd gamma eps net1 n
  have hdeque := trainLoop_deque upd gamma eps net1 n
  have hslen : (trainLoop upd gamma eps ⟨net1, [], [], 0⟩ n).scores.length = n := by
    rw [hscores]
    simp
  have hdlen : (trainLoop upd gamma eps ⟨net1, [], [], 0⟩ n).scores_deque.length
      = min 50 n := by
    rw [hdeque, List.length_drop, hslen]
    omega
  refine ⟨hscores, hdeque, hdlen, ?_⟩
  rw [npMean, hdlen, hdeque]

end RL
